import Mathlib

/-!
Shallow embedding of `arc4random_uniform` from `src/sys/libkern/arc4random_uniform.c`.

The C function is

    uint32_t
    arc4random_uniform(uint32_t limit)
    {
            uint64_t num = (uint64_t)arc4random() * (uint64_t)limit;
            if (__predict_false((uint32_t)(num) < limit)) {
                    uint32_t residue = (uint32_t)(-limit) % limit;
                    while ((uint32_t)(num) < residue)
                            num = (uint64_t)arc4random() * (uint64_t)limit;
            }
            return ((uint32_t)(num >> 32));
    }

We model the external generator `arc4random()` as a stream `src : Nat -> Nat` of
32-bit words (reduced mod 2^32 on use), indexed by draw order, and the possibly
nonterminating rejection loop with an explicit fuel argument bounding how many
extra draws the loop may make: `none` means the loop did not accept any word
within the given fuel. A successful run returns the function result together
with the exact number of words consumed from the stream, so that claims about
how many draws a call makes are statable. Machine integers are `Nat` with
explicit reduction mod `2^32`; the `uint64_t` product needs no reduction since
the product of two values below `2^32` is below `2^64`.
-/

namespace Arc4Uniform

/-- The number of distinct `uint32_t` values, `2^32`. -/
def U32 : ℕ := 2 ^ 32

/-- The low 32 bits of a value: the C cast `(uint32_t)(num)`. -/
def lo32 (n : ℕ) : ℕ := n % U32

/-- The high 32 bits of a 64-bit value: the C expression `(uint32_t)(num >> 32)`. -/
def hi32 (n : ℕ) : ℕ := lo32 (n / U32)

/-- Unsigned 32-bit negation with twos-complement wraparound: the C expression
`(uint32_t)(-limit)`. -/
def neg32 (x : ℕ) : ℕ := (U32 - x % U32) % U32

/-- The slow-path resample threshold: `uint32_t residue = (uint32_t)(-limit) % limit;`. -/
def residue (limit : ℕ) : ℕ := neg32 limit % limit

/-- The 64-bit product `(uint64_t)arc4random() * (uint64_t)limit`, where the word
returned by draw number `i` of the generator is `src i`, reduced to 32 bits as the
`uint32_t` return type of `arc4random()` dictates. -/
def wnum (limit : ℕ) (src : ℕ → ℕ) (i : ℕ) : ℕ := (src i % U32) * limit

/-- The slow-path rejection loop
`while ((uint32_t)(num) < residue) num = (uint64_t)arc4random() * (uint64_t)limit;`
followed by the return statement. `n` is the current value of `num`, computed from
draw number `i`; `fuel` bounds the number of further draws. On acceptance the
result is the pair of the returned value `(uint32_t)(num >> 32)` and the total
number of words drawn so far; `none` means no acceptance within `fuel` redraws. -/
def loopW (limit r : ℕ) (src : ℕ → ℕ) : ℕ → ℕ → ℕ → Option (ℕ × ℕ)
  | 0, i, n => if lo32 n < r then none else some (hi32 n, i + 1)
  | fuel + 1, i, n =>
    if lo32 n < r then loopW limit r src fuel (i + 1) (wnum limit src (i + 1))
    else some (hi32 n, i + 1)

/-- The whole function `arc4random_uniform(limit)` run against the word stream
`src` with `fuel` bounding the number of slow-path redraws: first draw `num` from
word 0, take the fast path (returning at once, one word consumed) unless
`(uint32_t)(num) < limit`, otherwise compute `residue` and run the rejection
loop. The result pairs the returned value with the number of words consumed. -/
def arc4random_uniform (limit : ℕ) (src : ℕ → ℕ) (fuel : ℕ) : Option (ℕ × ℕ) :=
  if lo32 (wnum limit src 0) < limit then
    loopW limit (residue limit) src fuel 0 (wnum limit src 0)
  else some (hi32 (wnum limit src 0), 1)

/-! ### Basic arithmetic lemmas about the embedding -/

lemma U32_pos : 0 < U32 := by unfold U32; positivity

/-- The twos-complement trick: for a genuine nonzero `uint32_t` limit,
`(uint32_t)(-limit) % limit` is exactly `2^32 % limit`. -/
lemma residue_mod (limit : ℕ) (h1 : 0 < limit) (h2 : limit < U32) :
    residue limit = U32 % limit := by
  unfold residue neg32
  rw [Nat.mod_eq_of_lt h2, Nat.mod_eq_of_lt (Nat.sub_lt U32_pos h1)]
  conv_rhs => rw [show U32 = U32 - limit + limit from (Nat.sub_add_cancel h2.le).symm]
  rw [Nat.add_mod_right]

/-- The resample threshold is below the limit whenever the limit is nonzero. -/
lemma residue_lt (limit : ℕ) (h1 : 0 < limit) : residue limit < limit :=
  Nat.mod_lt _ h1

/-- The candidate result extracted from a product is always below the limit. -/
lemma hi32_wnum_lt (limit : ℕ) (src : ℕ → ℕ) (i : ℕ) (h1 : 0 < limit)
    (h2 : limit ≤ U32) : hi32 (wnum limit src i) < limit := by
  have hlt : wnum limit src i / U32 < limit := by
    rw [Nat.div_lt_iff_lt_mul U32_pos]
    unfold wnum
    calc (src i % U32) * limit < U32 * limit :=
          mul_lt_mul_of_pos_right (Nat.mod_lt _ U32_pos) h1
      _ = limit * U32 := Nat.mul_comm _ _
  unfold hi32 lo32
  rw [Nat.mod_eq_of_lt (lt_of_lt_of_le hlt h2)]
  exact hlt

/-- When the current product is already acceptable, the loop returns at once,
independently of the fuel. -/
lemma loopW_accept_now (limit r : ℕ) (src : ℕ → ℕ) (fuel i n : ℕ)
    (h : ¬ lo32 n < r) : loopW limit r src fuel i n = some (hi32 n, i + 1) := by
  cases fuel with
  | zero => simp [loopW, h]
  | succ f => simp [loopW, h]

/-- A run of the whole function with `limit = 0` consumes one word and returns 0,
for every stream and every fuel. -/
lemma run_limit_zero (src : ℕ → ℕ) (fuel : ℕ) :
    arc4random_uniform 0 src fuel = some (0, 1) := by
  unfold arc4random_uniform
  have hz : wnum 0 src 0 = 0 := by unfold wnum; exact Nat.mul_zero _
  rw [hz]
  simp [lo32, hi32, Nat.zero_mod, Nat.zero_div]

/-- If every word of the stream from index `i` on lands in the rejection sliver,
the loop exhausts any amount of fuel without returning. -/
lemma loopW_reject_all (limit r : ℕ) (src : ℕ → ℕ)
    (hall : ∀ m, lo32 (wnum limit src m) < r) :
    ∀ fuel i, loopW limit r src fuel i (wnum limit src i) = none := by
  intro fuel
  induction fuel with
  | zero => intro i; simp [loopW, hall i]
  | succ f ih =>
    intro i
    simp only [loopW, hall i, if_pos]
    exact ih (i + 1)

/-- If the words at indices `i, ..., j-1` are all rejected and the word at index
`j` is accepted, the loop started at index `i` with at least `j - i` fuel returns
the candidate of word `j`, having consumed `j + 1` words in total. -/
lemma loopW_first_accept (limit r : ℕ) (src : ℕ → ℕ) (j : ℕ)
    (hj : r ≤ lo32 (wnum limit src j)) :
    ∀ fuel i, i ≤ j → (∀ m, i ≤ m → m < j → lo32 (wnum limit src m) < r) →
      j - i ≤ fuel →
      loopW limit r src fuel i (wnum limit src i) =
        some (hi32 (wnum limit src j), j + 1) := by
  intro fuel
  induction fuel with
  | zero =>
    intro i hij hrej hfi
    have hji : j = i := by omega
    subst hji
    simp [loopW, Nat.not_lt.mpr hj]
  | succ f ih =>
    intro i hij hrej hfi
    rcases Nat.eq_or_lt_of_le hij with heq | hlt
    · subst heq
      exact loopW_accept_now limit r src (f + 1) i _ (Nat.not_lt.mpr hj)
    · have hri : lo32 (wnum limit src i) < r := hrej i le_rfl hlt
      simp only [loopW, hri, if_pos]
      exact ih (i + 1) hlt (fun m h1 h2 => hrej m (le_of_lt h1) h2) (by omega)

/-- Whatever the loop returns was extracted as the high half of a product of a
32-bit word with the limit, so it is below the limit. -/
lemma loopW_result_lt (limit r : ℕ) (src : ℕ → ℕ) (h1 : 0 < limit)
    (h2 : limit ≤ U32) :
    ∀ fuel i j v k, loopW limit r src fuel i (wnum limit src j) = some (v, k) →
      v < limit := by
  intro fuel
  induction fuel with
  | zero =>
    intro i j v k h
    simp only [loopW] at h
    by_cases hc : lo32 (wnum limit src j) < r
    · simp [hc] at h
    · simp only [hc, if_neg, if_false] at h
      obtain ⟨hv, _⟩ := Prod.mk.injEq .. ▸ Option.some.injEq .. ▸ h
      exact hv ▸ hi32_wnum_lt limit src j h1 h2
  | succ f ih =>
    intro i j v k h
    simp only [loopW] at h
    by_cases hc : lo32 (wnum limit src j) < r
    · rw [if_pos hc] at h
      exact ih (i + 1) (i + 1) v k h
    · rw [if_neg hc] at h
      obtain ⟨hv, _⟩ := Prod.mk.injEq .. ▸ Option.some.injEq .. ▸ h
      exact hv ▸ hi32_wnum_lt limit src j h1 h2

/-! ### Claim theorems -/

/-- Claim C2: for every limit in `[1, 2^32 - 1]`, every stream and every fuel,
whenever the run returns a value that value is strictly below the limit. -/
theorem c2_range_invariant (limit : ℕ) (src : ℕ → ℕ) (fuel v k : ℕ)
    (h1 : 1 ≤ limit) (h2 : limit < U32)
    (h : arc4random_uniform limit src fuel = some (v, k)) : v < limit := by
  unfold arc4random_uniform at h
  by_cases hc : lo32 (wnum limit src 0) < limit
  · rw [if_pos hc] at h
    exact loopW_result_lt limit (residue limit) src h1 h2.le fuel 0 0 v k h
  · rw [if_neg hc] at h
    obtain ⟨hv, _⟩ := Prod.mk.injEq .. ▸ Option.some.injEq .. ▸ h
    exact hv ▸ hi32_wnum_lt limit src 0 h1 h2.le

/-- Witness for C2 at `limit = 5` with the constant stream 7: the run returns
the value 0 with one word consumed, and the theorem yields `0 < 5`. -/
theorem c2_range_invariant_witness :
    arc4random_uniform 5 (fun _ => 7) 1 = some (0, 1) ∧ (0 : ℕ) < 5 :=
  ⟨by decide, c2_range_invariant 5 (fun _ => 7) 1 0 1 (by decide) (by decide)
    (by decide)⟩

/-- Claim C4: for every limit in `[1, 2^32 - 1]`, the 32-bit computation
`(uint32_t)(-limit) % limit` equals `2^32 % limit`: twos-complement negation
followed by a 32-bit modulo yields the remainder of dividing `2^32` by the
limit. -/
theorem c4_residue_is_mod (limit : ℕ) (h1 : 1 ≤ limit) (h2 : limit < U32) :
    neg32 limit % limit = U32 % limit :=
  residue_mod limit h1 h2

/-- Witness for C4 at `limit = 3`: both sides evaluate to 1. -/
theorem c4_residue_is_mod_witness :
    neg32 3 % 3 = U32 % 3 ∧ U32 % 3 = 1 :=
  ⟨c4_residue_is_mod 3 (by decide) (by decide), by decide⟩

/-- Claim C7: with `limit = 1` the function returns 0 for every stream and every
fuel (and consumes exactly one word). -/
theorem c7_limit_one_returns_zero (src : ℕ → ℕ) (fuel : ℕ) :
    arc4random_uniform 1 src fuel = some (0, 1) := by
  unfold arc4random_uniform
  have hh : hi32 (wnum 1 src 0) = 0 := by
    unfold hi32 lo32 wnum
    rw [Nat.mul_one, Nat.div_eq_of_lt (Nat.mod_lt _ U32_pos), Nat.zero_mod]
  by_cases hc : lo32 (wnum 1 src 0) < 1
  · rw [if_pos hc]
    have hr : residue 1 = 0 := by unfold residue; exact Nat.mod_one _
    rw [hr, loopW_accept_now 1 0 src fuel 0 _ (by omega), hh]
  · rw [if_neg hc, hh]

/-- Claim C9: with `limit = 0` the slow-path guard `(uint32_t)num < limit` is
false for every stream (no natural is below 0, so the modulo by the limit is
never reached), and the call consumes exactly one word and returns 0. -/
theorem c9_limit_zero_safe (src : ℕ → ℕ) (fuel : ℕ) :
    ¬ lo32 (wnum 0 src 0) < 0 ∧ arc4random_uniform 0 src fuel = some (0, 1) :=
  ⟨Nat.not_lt_zero _, run_limit_zero src fuel⟩

/-- Counterexample to claim C3 as stated: with `limit = 0` the code does not
surface any InvalidArgument condition; on the concrete stream constantly 42 it
silently returns the value 0, consuming one word. There is no error outcome at
all in the code: the only possible outcomes are a returned value or
nontermination, and here it returns. -/
theorem c3_counterexample :
    arc4random_uniform 0 (fun _ => 42) 0 = some (0, 1) := by decide

/-- Claim C3 as amended: `sample_uniform(0, _)` neither divides by zero nor
loops forever: for every stream and every fuel it returns, consuming exactly
one word and producing 0 — but it does so silently instead of surfacing an
InvalidArgument condition. -/
theorem c3_amended_no_fault (src : ℕ → ℕ) (fuel : ℕ) :
    arc4random_uniform 0 src fuel = some (0, 1) :=
  run_limit_zero src fuel

/-- Claim C10: for every limit in `[1, 2^32 - 1]` the residue is strictly below
the limit, so every word accepted by the approximate fast-path test
(`frac >= limit`) also passes the exact test (`frac >= residue`): the fast path
never accepts a sample the exact test would reject. -/
theorem c10_fast_path_sound (limit : ℕ) (h1 : 1 ≤ limit) (h2 : limit < U32) :
    residue limit < limit ∧
    ∀ w : ℕ, limit ≤ lo32 ((w % U32) * limit) →
      residue limit ≤ lo32 ((w % U32) * limit) := by
  refine ⟨residue_lt limit h1, fun w hw => le_trans (residue_lt limit h1).le hw⟩

/-- Witness for C10 at `limit = 3`, word 7: the fraction is 21, at least the
limit, hence at least the residue. -/
theorem c10_fast_path_sound_witness :
    residue 3 < 3 ∧ (3 ≤ lo32 ((7 % U32) * 3) → residue 3 ≤ lo32 ((7 % U32) * 3)) :=
  ⟨(c10_fast_path_sound 3 (by decide) (by decide)).1,
   (c10_fast_path_sound 3 (by decide) (by decide)).2 7⟩

/-- Claim C5: for every power-of-two limit `2^k` with `k ≤ 31`, the residue is 0,
so the rejection loop never iterates: for every stream and every fuel the call
accepts the very first word, consuming exactly one word from the source. -/
theorem c5_power_of_two_no_rejection (k : ℕ) (hk : k ≤ 31) (src : ℕ → ℕ)
    (fuel : ℕ) :
    residue (2 ^ k) = 0 ∧
    arc4random_uniform (2 ^ k) src fuel =
      some (hi32 (wnum (2 ^ k) src 0), 1) := by
  have hpos : 0 < (2 : ℕ) ^ k := Nat.pos_pow_of_pos k (by omega)
  have hlt : (2 : ℕ) ^ k < U32 := by
    unfold U32
    exact Nat.pow_lt_pow_right (by omega) (by omega)
  have hres : residue (2 ^ k) = 0 := by
    rw [residue_mod _ hpos hlt]
    obtain ⟨c, hc⟩ : (2 : ℕ) ^ k ∣ U32 := pow_dvd_pow 2 (by omega)
    rw [hc]
    exact Nat.mul_mod_right _ _
  refine ⟨hres, ?_⟩
  unfold arc4random_uniform
  by_cases hc : lo32 (wnum (2 ^ k) src 0) < 2 ^ k
  · rw [if_pos hc, hres]
    exact loopW_accept_now _ 0 src fuel 0 _ (by omega)
  · rw [if_neg hc]

/-- Witness for C5 at `k = 16` (that is, `limit = 65536`) with a constant
stream: one word consumed, fast acceptance even with zero fuel. -/
theorem c5_power_of_two_no_rejection_witness :
    residue (2 ^ 16) = 0 ∧
    arc4random_uniform (2 ^ 16) (fun _ => 123456789) 0 =
      some (hi32 (wnum (2 ^ 16) (fun _ => 123456789) 0), 1) :=
  c5_power_of_two_no_rejection 16 (by decide) (fun _ => 123456789) 0

/-- Claim C6: with `limit = 3`, if the first word of the stream lands in the
rejection sliver (its fraction is below the residue) and the second word lands
outside it, the call consumes exactly two words and returns the candidate of the
second word, namely the high 32 bits of `w2 * 3`. -/
theorem c6_forced_rejection (src : ℕ → ℕ) (fuel : ℕ)
    (h0 : lo32 (wnum 3 src 0) < residue 3)
    (h1 : residue 3 ≤ lo32 (wnum 3 src 1)) (hf : 1 ≤ fuel) :
    arc4random_uniform 3 src fuel = some (hi32 ((src 1 % U32) * 3), 2) := by
  have hr3 : residue 3 < 3 := residue_lt 3 (by omega)
  unfold arc4random_uniform
  rw [if_pos (lt_trans h0 hr3)]
  obtain ⟨f, rfl⟩ := Nat.exists_eq_add_of_le hf
  have := loopW_first_accept 3 (residue 3) src 1 h1 (1 + f) 0 (by omega)
    (fun m hm1 hm2 => by
      have hm0 : m = 0 := by omega
      exact hm0 ▸ h0)
    (by omega)
  exact this

/-- Witness for C6: the stream starting `0, 7, 7, ...` has first fraction
`0 < residue 3 = 1` and second fraction `21 ≥ 1`; with fuel 1 the run returns
the candidate of word 1 (which is 0) having consumed two words. -/
theorem c6_forced_rejection_witness :
    arc4random_uniform 3 (fun i => if i = 0 then 0 else 7) 1 =
      some (hi32 ((7 % U32) * 3), 2) :=
  c6_forced_rejection (fun i => if i = 0 then 0 else 7) 1 (by decide) (by decide)
    (by decide)

/-- Claim C8: for every limit in `[1, 2^32 - 1]` and every stream: if some word
satisfies the acceptance test (its fraction is at least the residue), then for
every fuel of at least the index of the first such word, the call terminates and
returns the candidate of that first accepted word, consuming the words up to and
including it; and if no word ever satisfies the test, the call never returns,
whatever the fuel: termination is probabilistic with no fixed iteration bound. -/
theorem c8_termination (limit : ℕ) (src : ℕ → ℕ) (h1 : 1 ≤ limit)
    (h2 : limit < U32) :
    (∀ j, residue limit ≤ lo32 (wnum limit src j) →
      (∀ m, m < j → lo32 (wnum limit src m) < residue limit) →
      ∀ fuel, j ≤ fuel →
        arc4random_uniform limit src fuel =
          some (hi32 (wnum limit src j), j + 1)) ∧
    ((∀ i, lo32 (wnum limit src i) < residue limit) →
      ∀ fuel, arc4random_uniform limit src fuel = none) := by
  constructor
  · intro j hj hmin fuel hfuel
    unfold arc4random_uniform
    rcases Nat.eq_zero_or_pos j with hj0 | hjpos
    · subst hj0
      by_cases hc : lo32 (wnum limit src 0) < limit
      · rw [if_pos hc]
        exact loopW_accept_now limit (residue limit) src fuel 0 _
          (Nat.not_lt.mpr hj)
      · rw [if_neg hc]
    · have h0 : lo32 (wnum limit src 0) < residue limit := hmin 0 hjpos
      rw [if_pos (lt_trans h0 (residue_lt limit h1))]
      exact loopW_first_accept limit (residue limit) src j hj fuel 0 (by omega)
        (fun m _ hm => hmin m hm) (by omega)
  · intro hall fuel
    unfold arc4random_uniform
    rw [if_pos (lt_trans (hall 0) (residue_lt limit h1))]
    exact loopW_reject_all limit (residue limit) src hall fuel 0

/-- Witness for C8, first part, at `limit = 3` with the stream `0, 7, 7, ...`:
word 0 is rejected, word 1 is the first accepted word, and with fuel 5 the run
returns its candidate after two draws. -/
theorem c8_termination_witness :
    arc4random_uniform 3 (fun i => if i = 0 then 0 else 7) 5 =
      some (hi32 (wnum 3 (fun i => if i = 0 then 0 else 7) 1), 2) :=
  (c8_termination 3 (fun i => if i = 0 then 0 else 7) (by decide)
      (by decide)).1 1 (by decide) (by decide) 5 (by decide)

/-! ### Counting lemmas for the equiprobability claim -/

/-- In any half-open window of length `q * L`, exactly `q` multiples of `L`
occur: the multipliers form the interval from the ceiling of `a / L` of length
`q`. `hB` asks that the whole interval of multipliers fits below `B`. -/
lemma count_multiples (L q a B : ℕ) (hL : 0 < L)
    (hB : (a + (L - 1)) / L + q ≤ B) :
    ((Finset.range B).filter (fun w => a ≤ w * L ∧ w * L < a + q * L)).card
      = q := by
  have hceil : ∀ w : ℕ, (a + (L - 1)) / L ≤ w ↔ a ≤ w * L := by
    intro w
    rw [Nat.div_le_iff_le_mul_add_pred hL, Nat.mul_comm L w]
    constructor
    · intro h
      exact Nat.le_of_add_le_add_right h
    · intro h
      exact Nat.add_le_add_right h _
  have hcl : (a + (L - 1)) / L * L ≤ a + (L - 1) := Nat.div_mul_le_self _ _
  have hflt : (Finset.range B).filter (fun w => a ≤ w * L ∧ w * L < a + q * L)
      = Finset.Ico ((a + (L - 1)) / L) ((a + (L - 1)) / L + q) := by
    ext w
    simp only [Finset.mem_filter, Finset.mem_range, Finset.mem_Ico]
    constructor
    · rintro ⟨hwB, hlo, hhi⟩
      refine ⟨(hceil w).mpr hlo, ?_⟩
      by_contra hcon
      push_neg at hcon
      have h3 : ((a + (L - 1)) / L + q) * L ≤ w * L := mul_le_mul_right' hcon L
      have h4 : a ≤ (a + (L - 1)) / L * L := (hceil _).mp le_rfl
      rw [Nat.add_mul] at h3
      omega
    · rintro ⟨hc, hcq⟩
      have ha : a ≤ w * L := (hceil w).mp hc
      have h3 : (w + 1) * L ≤ ((a + (L - 1)) / L + q) * L :=
        mul_le_mul_right' hcq L
      rw [Nat.add_mul, Nat.add_mul, Nat.one_mul] at h3
      refine ⟨by omega, ha, by omega⟩
  rw [hflt, Nat.card_Ico]
  omega

/-- Membership characterization: a 32-bit word is accepted with candidate `v`
exactly when its product lies in the window of length `2^32 - residue` that
starts at `v * 2^32 + residue`. -/
lemma accept_candidate_iff (limit v w : ℕ) (h1 : 0 < limit) (h2 : limit < U32)
    (hv : v < limit) (hw : w < U32) :
    (residue limit ≤ lo32 (w * limit) ∧ hi32 (w * limit) = v) ↔
    (v * U32 + U32 % limit ≤ w * limit ∧
      w * limit < v * U32 + U32 % limit + U32 / limit * limit) := by
  have hwin : v * U32 + U32 % limit + U32 / limit * limit = (v + 1) * U32 := by
    rw [Nat.add_assoc, Nat.mod_add_div', Nat.add_mul, Nat.one_mul]
  rw [hwin, residue_mod limit h1 h2]
  have hdivlt : w * limit / U32 < limit := by
    rw [Nat.div_lt_iff_lt_mul U32_pos]
    calc w * limit < U32 * limit := mul_lt_mul_of_pos_right hw h1
      _ = limit * U32 := Nat.mul_comm _ _
  have hhi : hi32 (w * limit) = w * limit / U32 := by
    unfold hi32 lo32
    exact Nat.mod_eq_of_lt (lt_trans hdivlt h2)
  rw [hhi]
  unfold lo32
  have hdm : U32 * (w * limit / U32) + w * limit % U32 = w * limit :=
    Nat.div_add_mod _ _
  have hmlt : w * limit % U32 < U32 := Nat.mod_lt _ U32_pos
  constructor
  · rintro ⟨hr, hq⟩
    rw [hq, Nat.mul_comm U32 v] at hdm
    constructor
    · omega
    · rw [Nat.add_mul, Nat.one_mul]
      omega
  · rintro ⟨ha, hb⟩
    have hq : w * limit / U32 = v := by
      apply Nat.div_eq_of_lt_le
      · exact le_trans (Nat.le_add_right _ _) ha
      · exact hb
    rw [hq, Nat.mul_comm U32 v] at hdm
    exact ⟨by omega, hq⟩

/-- Claim C1: for every limit in `[1, 2^32 - 1]` and every value `v` below the
limit, the number of 32-bit words that are accepted on a single draw (fraction
at least the residue) with candidate (high half of the product) equal to `v` is
exactly `2^32 / limit`, rounded down — so under a uniform word source every
output value is equiprobable. -/
theorem c1_equiprobable (limit v : ℕ) (h1 : 1 ≤ limit) (h2 : limit < U32)
    (hv : v < limit) :
    ((Finset.range U32).filter
        (fun w => residue limit ≤ lo32 (w * limit) ∧ hi32 (w * limit) = v)).card
      = U32 / limit := by
  have hkey : ∀ w ∈ Finset.range U32,
      (residue limit ≤ lo32 (w * limit) ∧ hi32 (w * limit) = v) ↔
      (v * U32 + U32 % limit ≤ w * limit ∧
        w * limit < v * U32 + U32 % limit + U32 / limit * limit) := by
    intro w hw
    exact accept_candidate_iff limit v w h1 h2 hv (Finset.mem_range.mp hw)
  rw [Finset.filter_congr hkey]
  apply count_multiples limit (U32 / limit) (v * U32 + U32 % limit) U32 h1
  -- the interval of accepted multipliers fits inside the 32-bit word range
  have hwin : v * U32 + U32 % limit + U32 / limit * limit = (v + 1) * U32 := by
    rw [Nat.add_assoc, Nat.mod_add_div', Nat.add_mul, Nat.one_mul]
  have hcl : (v * U32 + U32 % limit + (limit - 1)) / limit * limit ≤
      v * U32 + U32 % limit + (limit - 1) := Nat.div_mul_le_self _ _
  have hvl : (v + 1) * U32 ≤ limit * U32 := mul_le_mul_right' hv U32
  have h5 : ((v * U32 + U32 % limit + (limit - 1)) / limit + U32 / limit)
      * limit < (U32 + 1) * limit := by
    rw [Nat.add_mul]
    have h6 : (U32 + 1) * limit = U32 * limit + limit := by
      rw [Nat.add_mul, Nat.one_mul]
    have h7 : limit * U32 = U32 * limit := Nat.mul_comm _ _
    omega
  have h8 : (v * U32 + U32 % limit + (limit - 1)) / limit + U32 / limit
      < U32 + 1 := lt_of_mul_lt_mul_right h5 (Nat.zero_le _)
  omega

/-- Witness for C1 at `limit = 6`, `v = 1`: the count of accepting words with
candidate 1 is the 32-bit range divided by 6. -/
theorem c1_equiprobable_witness :
    (1 : ℕ) ≤ 6 ∧
    ((Finset.range U32).filter
        (fun w => residue 6 ≤ lo32 (w * 6) ∧ hi32 (w * 6) = 1)).card
      = U32 / 6 :=
  ⟨by decide, c1_equiprobable 6 1 (by decide) (by decide) (by decide)⟩

end Arc4Uniform
